import Mathlib

/-!
Verification of the gopls-backed code-definition tool: a shallow embedding of
the symbol locator, URI handling, definition resolution and report formatting,
translated from the Go source, together with theorems about their behavior.
-/

/-- The newline character, on which file contents are split into lines. -/
def nlChar : Char := Char.ofNat 10

/-- The single-quote character used by the report formatting. -/
def sqChar : Char := Char.ofNat 39

/-- Zero-based protocol position (protocol.Position): line and character. -/
structure Position where
  line : Nat
  character : Nat
  deriving DecidableEq

/-- Protocol range (protocol.Range): start and end positions. `stop` embeds the
source field `End` (a reserved word in Lean). -/
structure Range where
  start : Position
  stop : Position
  deriving DecidableEq

/-- Protocol location (protocol.Location): a document URI plus a Range. -/
structure Location where
  uri : List Char
  range : Range
  deriving DecidableEq

/-- Embeds Go strings.HasPrefix pat applied to s (argument order: pattern, string). -/
def isPrefOf : List Char → List Char → Bool
  | [], _ => true
  | _ :: _, [] => false
  | p :: ps, c :: cs => p == c && isPrefOf ps cs

/-- Embeds Go strings.Index(s, pat): the first index at which pat occurs in s,
none when it does not occur (Go returns -1). -/
def strIndex : List Char → List Char → Option Nat
  | [], pat => if isPrefOf pat [] then some 0 else none
  | c :: cs, pat =>
    if isPrefOf pat (c :: cs) then some 0
    else (strIndex cs pat).map (fun n => n + 1)

/-- Embeds Go strings.Split(content, newline). -/
def splitOnNl : List Char → List (List Char)
  | [] => [[]]
  | c :: cs =>
    if c = nlChar then [] :: splitOnNl cs
    else
      match splitOnNl cs with
      | [] => [[c]]
      | l :: ls => (c :: l) :: ls

/-- The ordered pattern list tried by findSymbolPosition for a symbol, exactly
as built in the source (fmt.Sprintf over the seven formats). -/
def patterns (symbol : List Char) : List (List Char) :=
  [ "func ".data ++ symbol ++ "(".data,
    "func (".data ++ symbol ++ ")".data,
    "type ".data ++ symbol ++ " ".data,
    "var ".data ++ symbol ++ " ".data,
    "const ".data ++ symbol ++ " ".data,
    symbol ++ " :=".data,
    symbol ++ " =".data ]

/-- The inner pattern loop of findSymbolPosition: returns the index of the
first pattern (in list order) that occurs in the line. -/
def findFirst (line : List Char) : List (List Char) → Option Nat
  | [] => none
  | p :: ps =>
    match strIndex line p with
    | some idx => some idx
    | none => findFirst line ps

/-- One line-iteration of findSymbolPosition: the pattern loop followed by the
plain substring fallback (strings.Contains then strings.Index in the source). -/
def lineScan (symbol line : List Char) : Option Nat :=
  match findFirst line (patterns symbol) with
  | some idx => some idx
  | none => strIndex line symbol

/-- The line loop of findSymbolPosition, carrying the current line number. -/
def goFind (symbol : List Char) : Nat → List (List Char) → Option Position
  | _, [] => none
  | lineNum, line :: rest =>
    match lineScan symbol line with
    | some idx => some ⟨lineNum, idx⟩
    | none => goFind symbol (lineNum + 1) rest

/-- Embeds GoplsTool.findSymbolPosition: splits the content on newlines and
scans the lines in order, returning the first hit. -/
def findSymbolPosition (content symbol : List Char) : Option Position :=
  goFind symbol 0 (splitOnNl content)

/-- Embeds Go strings.TrimPrefix(s, pre): drops pre when it is present at the
front of s, otherwise returns s unchanged. -/
def trimPre (s pre : List Char) : List Char :=
  if isPrefOf pre s then s.drop pre.length else s

/-- The document-URI construction used in initializeWorkspace and
getDefinitionAtPosition: the literal concatenation "file://" + path. -/
def toUri (filePath : List Char) : List Char :=
  "file://".data ++ filePath

/-- The path extraction used in getCodeAtLocation: strings.TrimPrefix of the
"file://" scheme. -/
def fromUri (uri : List Char) : List Char :=
  trimPre uri "file://".data

/-- Decimal digit character, for the report's %d formatting. -/
def digitChar (n : Nat) : Char := Char.ofNat (48 + n)

/-- Fueled decimal rendering; the fuel n + 1 always suffices. -/
def natStrCore : Nat → Nat → List Char → List Char
  | 0, _, acc => acc
  | fuel + 1, n, acc =>
    if n < 10 then digitChar n :: acc
    else natStrCore fuel (n / 10) (digitChar (n % 10) :: acc)

/-- Embeds fmt.Sprintf %d for the non-negative integers printed in the report. -/
def natStr (n : Nat) : List Char := natStrCore (n + 1) n []

/-- The extraction loop of getCodeAtLocation, written with the number of
remaining iterations as the recursion measure: for i from startLine while
i <= endLine, append lines[i] when i is in bounds, with a newline between
consecutive lines (only when i < endLine). -/
def extractCount (lines : List (List Char)) (endLine : Nat) : Nat → Nat → List Char
  | _, 0 => []
  | i, count + 1 =>
    (if i < lines.length then
       lines.getD i [] ++ (if i < endLine then [nlChar] else [])
     else [])
      ++ extractCount lines endLine (i + 1) count

/-- The extraction loop of getCodeAtLocation from startLine to endLine
inclusive (no iterations when startLine > endLine). -/
def extractLines (lines : List (List Char)) (startLine endLine : Nat) : List Char :=
  extractCount lines endLine startLine (endLine + 1 - startLine)

/-- The clamp-then-extract tail of getCodeAtLocation: an end line past the last
line is reset to the last line before the loop runs. -/
def extractClamped (lines : List (List Char)) (startLine endLine : Nat) :
    Except (List Char) (List Char) :=
  .ok (extractLines lines startLine
    (if endLine ≥ lines.length then lines.length - 1 else endLine))

/-- Embeds GoplsTool.getCodeAtLocation. The file system is passed explicitly:
fs embeds os.ReadFile, returning the file content or an error message. -/
def getCodeAtLocation (fs : List Char → Except (List Char) (List Char))
    (location : Location) : Except (List Char) (List Char) :=
  match fs (fromUri location.uri) with
  | .error e => .error e
  | .ok content =>
    let lines := splitOnNl content
    if location.range.start.line ≥ lines.length then
      .error "start line out of bounds".data
    else
      extractClamped lines location.range.start.line location.range.stop.line

/-- Embeds GoplsTool.getDefinitionAtPosition. goToDef embeds
goplsClient.GoToDefinition(uri, line, character); an empty location list
becomes the error "no definition found", otherwise the first location wins. -/
def getDefinitionAtPosition
    (goToDef : List Char → Nat → Nat → Except (List Char) (List Location))
    (filePath : List Char) (position : Position) : Except (List Char) Location :=
  match goToDef (toUri filePath) position.line position.character with
  | .error e => .error e
  | .ok [] => .error "no definition found".data
  | .ok (l :: _) => .ok l

/-- Embeds GoplsTool.initializeWorkspace: reads the file, then opens the
document under the "file://" URI with language id "go". didOpen embeds
goplsClient.DidOpen; the goplsClient.Initialize guard is a no-op here because
the already-initialized session it checks lives in the GoplsClient, outside
these source files (see sessionInitialize for its spec model). -/
def initializeWorkspace (fs : List Char → Except (List Char) (List Char))
    (didOpen : List Char → List Char → List Char → Except (List Char) Unit)
    (filePath : List Char) : Except (List Char) Unit :=
  match fs filePath with
  | .error e => .error ("failed to read file content: ".data ++ e)
  | .ok content =>
    match didOpen (toUri filePath) "go".data content with
    | .error e => .error ("failed to open document in gopls: ".data ++ e)
    | .ok _ => .ok ()

/-- The "Symbol '%s': Not found in file\n" report line. -/
def notFoundLine (symbol : List Char) : List Char :=
  "Symbol ".data ++ [sqChar] ++ symbol ++ [sqChar] ++ ": Not found in file\n".data

/-- The "Symbol '%s': Error getting definition - %v\n" report line. -/
def defErrLine (symbol e : List Char) : List Char :=
  "Symbol ".data ++ [sqChar] ++ symbol ++ [sqChar]
    ++ ": Error getting definition - ".data ++ e ++ "\n".data

/-- The optional "  Code:\n%s\n" segment of a success block: written only when
getCodeAtLocation succeeded with non-empty content. -/
def codeSegment (fs : List Char → Except (List Char) (List Char))
    (definition : Location) : List Char :=
  match getCodeAtLocation fs definition with
  | .ok defContent =>
    if defContent ≠ [] then "  Code:\n".data ++ defContent ++ "\n".data else []
  | .error _ => []

/-- The success block of the report for one symbol: header line, Location line,
one-based Line/Character line, optional code segment, and a blank line. -/
def successBlock (fs : List Char → Except (List Char) (List Char))
    (symbol : List Char) (definition : Location) : List Char :=
  "Symbol ".data ++ [sqChar] ++ symbol ++ [sqChar] ++ ":\n".data
    ++ "  Location: ".data ++ definition.uri ++ "\n".data
    ++ "  Line: ".data ++ natStr (definition.range.start.line + 1)
    ++ ", Character: ".data ++ natStr (definition.range.start.character + 1)
    ++ "\n".data
    ++ codeSegment fs definition
    ++ "\n".data

/-- The loop body of GetCodeDefinitions for one symbol: locate the symbol, ask
gopls for the definition, and render one of the three report shapes. -/
def symbolChunk (fs : List Char → Except (List Char) (List Char))
    (goToDef : List Char → Nat → Nat → Except (List Char) (List Location))
    (filePath content symbol : List Char) : List Char :=
  match findSymbolPosition content symbol with
  | none => notFoundLine symbol
  | some position =>
    match getDefinitionAtPosition goToDef filePath position with
    | .error e => defErrLine symbol e
    | .ok definition => successBlock fs symbol definition

/-- Embeds GoplsTool.GetCodeDefinitions: initialize the workspace, read the
file, then build the report with one chunk per requested symbol. -/
def getCodeDefinitions (fs : List Char → Except (List Char) (List Char))
    (didOpen : List Char → List Char → List Char → Except (List Char) Unit)
    (goToDef : List Char → Nat → Nat → Except (List Char) (List Location))
    (filePath : List Char) (symbols : List (List Char)) :
    Except (List Char) (List Char) :=
  match initializeWorkspace fs didOpen filePath with
  | .error e => .error ("failed to initialize workspace: ".data ++ e)
  | .ok _ =>
    match fs filePath with
    | .error e => .error ("failed to read file: ".data ++ e)
    | .ok content =>
      .ok ("Code Definitions:\n\n".data
        ++ (symbols.map (symbolChunk fs goToDef filePath content)).flatten)

/-- Session lifecycle states of the gopls session (spec section 4.4). -/
inductive SessionState
  | uninitialized
  | initializing
  | ready
  | closing
  | closed
  deriving DecidableEq

/-- Session-level errors of the handshake state machine (spec section 7). -/
inductive SessionError
  | notReadyError
  | alreadyInitializedError
  | handshakeError
  | closedError
  deriving DecidableEq

/-- Modelled from the spec: GoplsClient.Initialize — the handshake entry point
guarded by the client's initialized state — is not among these source files
(only its caller initializeWorkspace is), so the section 4.4 state machine is
taken at its word: Initialize from Uninitialized performs the handshake and
reaches Ready when the initialize response succeeds (Closed with
HandshakeError otherwise); Initialize while Ready fails with
AlreadyInitializedError; after Closed everything fails with ClosedError. -/
def sessionInitialize (st : SessionState) (handshakeOk : Bool) :
    Except SessionError SessionState :=
  match st with
  | .uninitialized =>
    if handshakeOk then .ok .ready else .error .handshakeError
  | .initializing => .error .notReadyError
  | .ready => .error .alreadyInitializedError
  | .closing => .error .closedError
  | .closed => .error .closedError

/-- pat occurs in s as a contiguous substring. -/
def Occurs (pat s : List Char) : Prop :=
  ∃ pre post, s = pre ++ pat ++ post

/-- Newline-join of a list of lines, with no trailing newline: the shape of the
code excerpt built by getCodeAtLocation's loop. -/
def joinNl : List (List Char) → List Char
  | [] => []
  | [l] => l
  | l :: l' :: ls => l ++ nlChar :: joinNl (l' :: ls)

/-! ## Basic lemmas about the string primitives -/

theorem isPrefOf_append_self (xs : List Char) : ∀ ys, isPrefOf xs (xs ++ ys) = true := by
  induction xs with
  | nil => intro ys; rfl
  | cons x xs ih => intro ys; simp [isPrefOf, ih]

theorem isPrefOf_iff (pat : List Char) :
    ∀ s, isPrefOf pat s = true ↔ ∃ post, s = pat ++ post := by
  induction pat with
  | nil =>
    intro s
    simp [isPrefOf]
  | cons p ps ih =>
    intro s
    cases s with
    | nil =>
      simp [isPrefOf]
    | cons c cs =>
      simp only [isPrefOf, Bool.and_eq_true, beq_iff_eq, ih, List.cons_append,
        List.cons.injEq]
      constructor
      · rintro ⟨rfl, post, rfl⟩
        exact ⟨post, rfl, rfl⟩
      · rintro ⟨post, rfl, rfl⟩
        exact ⟨rfl, post, rfl⟩

theorem strIndex_some (pat : List Char) :
    ∀ s i, strIndex s pat = some i →
      ∃ pre post, s = pre ++ pat ++ post ∧ pre.length = i := by
  intro s
  induction s with
  | nil =>
    intro i h
    simp only [strIndex] at h
    split at h
    · rename_i hp
      obtain ⟨post, hpost⟩ := (isPrefOf_iff pat []).mp hp
      cases h
      exact ⟨[], post, by simpa using hpost, rfl⟩
    · cases h
  | cons c cs ih =>
    intro i h
    simp only [strIndex] at h
    split at h
    · rename_i hp
      obtain ⟨post, hpost⟩ := (isPrefOf_iff pat (c :: cs)).mp hp
      cases h
      exact ⟨[], post, by simpa using hpost, rfl⟩
    · rcases hrec : strIndex cs pat with _ | j
      · rw [hrec] at h; cases h
      · rw [hrec] at h
        simp only [Option.map_some'] at h
        obtain ⟨pre, post, hsplit, hlen⟩ := ih j hrec
        exact ⟨c :: pre, post, by simp [hsplit], by
          simp only [List.length_cons, hlen]
          exact Option.some.inj h⟩

theorem occurs_iff_isSome (pat : List Char) :
    ∀ s, Occurs pat s ↔ (strIndex s pat).isSome := by
  intro s
  induction s with
  | nil =>
    constructor
    · rintro ⟨pre, post, h⟩
      have hpre : pre = [] := by
        cases pre with
        | nil => rfl
        | cons a as => simp at h
      subst hpre
      have hpat : pat = [] := by
        cases pat with
        | nil => rfl
        | cons a as => simp at h
      subst hpat
      simp [strIndex, isPrefOf]
    · intro h
      rcases hrec : strIndex [] pat with _ | j
      · rw [hrec] at h; simp at h
      · obtain ⟨pre, post, hsplit, _⟩ := strIndex_some pat [] j hrec
        exact ⟨pre, post, hsplit⟩
  | cons c cs ih =>
    constructor
    · rintro ⟨pre, post, h⟩
      simp only [strIndex]
      split
      · simp
      · rename_i hp
        cases pre with
        | nil =>
          exfalso
          exact hp ((isPrefOf_iff pat (c :: cs)).mpr ⟨post, by simpa using h⟩)
        | cons a as =>
          simp only [List.cons_append, List.cons.injEq] at h
          have : Occurs pat cs := ⟨as, post, h.2⟩
          have := ih.mp this
          simpa using this
    · intro h
      rcases hrec : strIndex (c :: cs) pat with _ | j
      · rw [hrec] at h; simp at h
      · obtain ⟨pre, post, hsplit, _⟩ := strIndex_some pat (c :: cs) j hrec
        exact ⟨pre, post, hsplit⟩

theorem strIndex_none_iff (pat s : List Char) :
    strIndex s pat = none ↔ ¬ Occurs pat s := by
  rw [occurs_iff_isSome]
  cases h : strIndex s pat <;> simp

theorem occurs_trans {a b c : List Char} (hab : Occurs a b) (hbc : Occurs b c) :
    Occurs a c := by
  obtain ⟨p1, s1, rfl⟩ := hab
  obtain ⟨p2, s2, rfl⟩ := hbc
  exact ⟨p2 ++ p1, s1 ++ s2, by simp⟩

/-! ## C8: the URI scheme round trip -/

theorem fromUri_toUri (p : List Char) : fromUri (toUri p) = p := by
  simp only [fromUri, toUri, trimPre, isPrefOf_append_self, if_true]
  exact List.drop_left _ _

/-- C8: for every file path p, the document URI handed to the subprocess is the
literal concatenation "file://" + p, and getCodeAtLocation's stripping of the
"file://" prefix recovers p from it, so prefixing and stripping are mutually
inverse on URIs of this form. -/
theorem uriRoundTrip :
    ∀ p : List Char,
      toUri p = "file://".data ++ p ∧
      fromUri (toUri p) = p ∧
      toUri (fromUri (toUri p)) = toUri p := by
  intro p
  refine ⟨rfl, fromUri_toUri p, ?_⟩
  rw [fromUri_toUri p]

/-! ## C4: the handshake is single-shot -/

/-- C4: on the session state machine modelled from the spec, a first
Initialize from Uninitialized with a successful handshake reaches Ready, and
any further Initialize while Ready fails with AlreadyInitializedError. -/
theorem initializeSingleShot :
    sessionInitialize .uninitialized true = .ok .ready ∧
    ∀ b, sessionInitialize .ready b = .error .alreadyInitializedError := by
  exact ⟨rfl, fun _ => rfl⟩

/-! ## C1: the located position of "func Foo() {}" -/

/-- C1 counterexample: on content "func Foo() {}\n" with symbol "Foo" the
locator returns {line 0, character 0} — the index at which the matched pattern
"func Foo(" starts — and not {line 0, character 5} as claimed. -/
theorem locateFuncFooCounter :
    findSymbolPosition "func Foo() {}\n".data "Foo".data = some ⟨0, 0⟩ ∧
    findSymbolPosition "func Foo() {}\n".data "Foo".data ≠ some ⟨0, 5⟩ := by
  decide

/-- C1 amended: on content "func Foo() {}\n" with symbol "Foo" the locator
returns {line 0, character 0}: the character is the offset at which the matched
function-declaration pattern "func Foo(" begins in the line, not the offset of
the symbol inside that pattern. -/
theorem locateFuncFooAmended :
    findSymbolPosition "func Foo() {}\n".data "Foo".data = some ⟨0, 0⟩ ∧
    strIndex "func Foo() {}".data ("func ".data ++ "Foo".data ++ "(".data) = some 0 := by
  decide

/-! ## C5: pattern priority within a line -/

theorem findFirst_eq_of_hit (line : List Char) :
    ∀ (ps : List (List Char)) (k idx : Nat), k < ps.length →
      (∀ j, j < k → strIndex line (ps.getD j []) = none) →
      strIndex line (ps.getD k []) = some idx →
      findFirst line ps = some idx := by
  intro ps
  induction ps with
  | nil =>
    intro k idx hk
    simp at hk
  | cons p ps ih =>
    intro k idx hk hprev hhit
    cases k with
    | zero =>
      simp only [List.getD_cons_zero] at hhit
      simp [findFirst, hhit]
    | succ k =>
      have h0 : strIndex line p = none := by
        have := hprev 0 (Nat.succ_pos k)
        simpa using this
      simp only [List.getD_cons_succ] at hhit
      simp only [findFirst, h0]
      exact ih k idx (by simpa using hk)
        (fun j hj => by simpa using hprev (j + 1) (Nat.succ_lt_succ hj)) hhit

theorem splitOnNl_no_nl (l : List Char) (h : nlChar ∉ l) : splitOnNl l = [l] := by
  induction l with
  | nil => rfl
  | cons c cs ih =>
    have hc : c ≠ nlChar := fun hc => h (hc ▸ List.mem_cons_self c cs)
    have hcs : nlChar ∉ cs := fun hm => h (List.mem_cons_of_mem c hm)
    simp [splitOnNl, hc, ih hcs]

/-- C5: the per-line scan of the symbol locator tries the structural patterns
in exactly the priority order of the claim — function declaration,
method-receiver declaration, type declaration, variable declaration, constant
declaration, short-assignment, plain assignment — and when the pattern of
priority k occurs in the line while every higher-priority pattern does not,
the scan returns the occurrence index of that pattern k, regardless of whether
a lower-priority pattern occurs further left; on a one-line content the
locator returns exactly that index as the character. -/
theorem patternPriority :
    (∀ s : List Char, patterns s =
      [ "func ".data ++ s ++ "(".data,
        "func (".data ++ s ++ ")".data,
        "type ".data ++ s ++ " ".data,
        "var ".data ++ s ++ " ".data,
        "const ".data ++ s ++ " ".data,
        s ++ " :=".data,
        s ++ " =".data ]) ∧
    (∀ (line s : List Char) (k idx : Nat), k < (patterns s).length →
      (∀ j, j < k → strIndex line ((patterns s).getD j []) = none) →
      strIndex line ((patterns s).getD k []) = some idx →
      lineScan s line = some idx) ∧
    (∀ (s line : List Char) (idx : Nat), nlChar ∉ line →
      lineScan s line = some idx →
      findSymbolPosition line s = some ⟨0, idx⟩) := by
  refine ⟨fun _ => rfl, ?_, ?_⟩
  · intro line s k idx hk hprev hhit
    have := findFirst_eq_of_hit line (patterns s) k idx hk hprev hhit
    simp [lineScan, this]
  · intro s line idx h hscan
    simp [findSymbolPosition, splitOnNl_no_nl line h, goFind, hscan]

/-- C5 witness: in the line "a = f(); var a b" with symbol "a", the variable
declaration pattern "var a " (priority 3) occurs at index 9 while the three
higher-priority patterns are absent, so the scan returns 9 even though the
lower-priority pattern "a =" occurs at index 0; on that one-line content the
locator returns character 9. -/
theorem patternPriority_witness :
    lineScan "a".data "a = f(); var a b".data = some 9 ∧
    findSymbolPosition "a = f(); var a b".data "a".data = some ⟨0, 9⟩ :=
  ⟨patternPriority.2.1 "a = f(); var a b".data "a".data 3 9 (by decide)
      (by decide) (by decide),
    patternPriority.2.2 "a".data "a = f(); var a b".data 9 (by decide)
      (patternPriority.2.1 "a = f(); var a b".data "a".data 3 9 (by decide)
        (by decide) (by decide))⟩

/-! ## C2: the substring fallback is per line, not global -/

/-- C2 counterexample: on content "x Foo y\nfunc Foo() {}" with symbol "Foo",
a structural pattern (the function declaration) matches on line 1, yet the
locator returns {line 0, character 2}, the plain-substring occurrence on the
earlier line 0 — so a structural match somewhere does not take precedence over
an earlier plain-substring line, contrary to the claim. -/
theorem fallbackPerLineCounter :
    findSymbolPosition "x Foo y\nfunc Foo() {}".data "Foo".data = some ⟨0, 2⟩ ∧
    findFirst "x Foo y".data (patterns "Foo".data) = none ∧
    findFirst "func Foo() {}".data (patterns "Foo".data) = some 0 := by
  decide

theorem goFind_eq_of_hit (symbol : List Char) :
    ∀ (lines : List (List Char)) (base n idx : Nat), n < lines.length →
      (∀ m, m < n → lineScan symbol (lines.getD m []) = none) →
      lineScan symbol (lines.getD n []) = some idx →
      goFind symbol base lines = some ⟨base + n, idx⟩ := by
  intro lines
  induction lines with
  | nil =>
    intro base n idx hn
    simp at hn
  | cons line rest ih =>
    intro base n idx hn hprev hhit
    cases n with
    | zero =>
      simp only [List.getD_cons_zero] at hhit
      simp [goFind, hhit]
    | succ n =>
      have h0 : lineScan symbol line = none := by
        have := hprev 0 (Nat.succ_pos n)
        simpa using this
      simp only [List.getD_cons_succ] at hhit
      simp only [goFind, h0]
      have := ih (base + 1) n idx (by simpa using hn)
        (fun m hm => by simpa using hprev (m + 1) (Nat.succ_lt_succ hm)) hhit
      rw [this]
      congr 2
      omega

/-- C2 amended: the plain-substring fallback is applied per line, not
globally: the locator returns from the first line on which either a structural
pattern or a plain-substring occurrence of the symbol is found (structural
patterns taking priority within that line), so a plain-substring occurrence on
an earlier line wins over a structural pattern match on a later line. -/
theorem fallbackPerLine (content symbol : List Char) (n idx : Nat)
    (hn : n < (splitOnNl content).length)
    (hprev : ∀ m, m < n → lineScan symbol ((splitOnNl content).getD m []) = none)
    (hhit : lineScan symbol ((splitOnNl content).getD n []) = some idx) :
    findSymbolPosition content symbol = some ⟨n, idx⟩ := by
  have := goFind_eq_of_hit symbol (splitOnNl content) 0 n idx hn hprev hhit
  simpa [findSymbolPosition] using this

/-- C2 amended witness: on "x Foo y\nfunc Foo() {}" the first line with any
hit is line 0, a plain-substring hit at index 2, and the locator returns it. -/
theorem fallbackPerLine_witness :
    findSymbolPosition "x Foo y\nfunc Foo() {}".data "Foo".data = some ⟨0, 2⟩ :=
  fallbackPerLine "x Foo y\nfunc Foo() {}".data "Foo".data 0 2 (by decide)
    (by decide) (by decide)

/-! ## C6: not-found exactly when the symbol occurs nowhere -/

theorem splitOnNl_ne_nil (s : List Char) : splitOnNl s ≠ [] := by
  cases s with
  | nil => simp [splitOnNl]
  | cons c cs =>
    simp only [splitOnNl]
    split
    · simp
    · cases h : splitOnNl cs <;> simp [h]

theorem split_headD_pre (s : List Char) :
    ∃ post, s = (splitOnNl s).headD [] ++ post := by
  induction s with
  | nil => exact ⟨[], rfl⟩
  | cons c cs ih =>
    by_cases hc : c = nlChar
    · refine ⟨c :: cs, ?_⟩
      simp [splitOnNl, hc]
    · obtain ⟨post, hpost⟩ := ih
      rcases h : splitOnNl cs with _ | ⟨l, ls⟩
      · exact absurd h (splitOnNl_ne_nil cs)
      · refine ⟨post, ?_⟩
        simp only [splitOnNl, if_neg hc, h, List.headD_cons, List.cons_append]
        rw [h] at hpost
        simp only [List.headD_cons] at hpost
        rw [← hpost]

theorem split_headD_of_pre (sym : List Char) (hnl : nlChar ∉ sym) :
    ∀ s post, s = sym ++ post →
      ∃ post2, (splitOnNl s).headD [] = sym ++ post2 := by
  induction sym with
  | nil =>
    intro s _ _
    exact ⟨(splitOnNl s).headD [], by simp⟩
  | cons a sym ih =>
    intro s post hs
    have ha : a ≠ nlChar := fun h => hnl (h ▸ List.mem_cons_self a sym)
    have hsym : nlChar ∉ sym := fun h => hnl (List.mem_cons_of_mem a h)
    subst hs
    rcases h : splitOnNl (sym ++ post) with _ | ⟨l, ls⟩
    · exact absurd h (splitOnNl_ne_nil _)
    · obtain ⟨post2, hp2⟩ := ih hsym (sym ++ post) post rfl
      rw [h] at hp2
      simp only [List.headD_cons] at hp2
      refine ⟨post2, ?_⟩
      have hsplit2 : splitOnNl (a :: (sym ++ post)) = (a :: l) :: ls := by
        simp only [splitOnNl, if_neg ha, h]
      rw [List.cons_append, hsplit2]
      simp [hp2]

theorem occurs_line_of_occurs {sym : List Char} (hnl : nlChar ∉ sym) :
    ∀ s, Occurs sym s → ∃ line ∈ splitOnNl s, Occurs sym line := by
  intro s
  induction s with
  | nil =>
    rintro ⟨pre, post, h⟩
    have hsym : sym = [] := by
      cases pre with
      | nil =>
        cases sym with
        | nil => rfl
        | cons y ys => exact absurd h (by simp)
      | cons x xs => exact absurd h (by simp)
    exact ⟨[], by simp [splitOnNl], [], [], by simp [hsym]⟩
  | cons c cs ih =>
    rintro ⟨pre, post, h⟩
    cases pre with
    | nil =>
      simp only [List.nil_append] at h
      cases sym with
      | nil =>
        rcases hsp : splitOnNl (c :: cs) with _ | ⟨l, ls⟩
        · exact absurd hsp (splitOnNl_ne_nil _)
        · exact ⟨l, by simp [hsp], [], l, by simp⟩
      | cons a sym' =>
        simp only [List.cons_append, List.cons.injEq] at h
        have ha : a ≠ nlChar := fun hh => hnl (hh ▸ List.mem_cons_self a sym')
        have hc : c ≠ nlChar := h.1 ▸ ha
        have hsym' : nlChar ∉ sym' := fun hh => hnl (List.mem_cons_of_mem a hh)
        rcases hsp : splitOnNl cs with _ | ⟨l, ls⟩
        · exact absurd hsp (splitOnNl_ne_nil _)
        · obtain ⟨post2, hp2⟩ := split_headD_of_pre sym' hsym' cs post h.2
          rw [hsp] at hp2
          simp only [List.headD_cons] at hp2
          refine ⟨c :: l, ?_, [], post2, ?_⟩
          · simp [splitOnNl, hc, hsp]
          · simp [hp2, ← h.1]
    | cons p pre' =>
      simp only [List.cons_append, List.cons.injEq] at h
      obtain ⟨line, hmem, hocc⟩ := ih ⟨pre', post, h.2⟩
      by_cases hc : c = nlChar
      · refine ⟨line, ?_, hocc⟩
        simp [splitOnNl, hc, hmem]
      · rcases hsp : splitOnNl cs with _ | ⟨l, ls⟩
        · exact absurd hsp (splitOnNl_ne_nil _)
        · rw [hsp] at hmem
          rcases List.mem_cons.mp hmem with rfl | hmem'
          · obtain ⟨p2, s2, hl⟩ := hocc
            refine ⟨c :: line, ?_, c :: p2, s2, by simp [hl]⟩
            simp [splitOnNl, hc, hsp]
          · refine ⟨line, ?_, hocc⟩
            simp [splitOnNl, hc, hsp, hmem']

theorem occurs_of_mem_split :
    ∀ (s line : List Char), line ∈ splitOnNl s → Occurs line s := by
  intro s
  induction s with
  | nil =>
    intro line h
    simp only [splitOnNl, List.mem_singleton] at h
    subst h
    exact ⟨[], [], rfl⟩
  | cons c cs ih =>
    intro line h
    by_cases hc : c = nlChar
    · simp only [splitOnNl, if_pos hc] at h
      rcases List.mem_cons.mp h with rfl | h'
      · exact ⟨[], c :: cs, rfl⟩
      · obtain ⟨pre, post, hsplit⟩ := ih line h'
        exact ⟨c :: pre, post, by simp [hsplit]⟩
    · rcases hsp : splitOnNl cs with _ | ⟨l, ls⟩
      · exact absurd hsp (splitOnNl_ne_nil _)
      · simp only [splitOnNl, if_neg hc, hsp] at h
        rcases List.mem_cons.mp h with rfl | h'
        · obtain ⟨post, hpost⟩ := split_headD_pre cs
          rw [hsp] at hpost
          simp only [List.headD_cons] at hpost
          exact ⟨[], post, by simp [hpost]⟩
        · obtain ⟨pre, post, hsplit⟩ :=
            ih line (by rw [hsp]; exact List.mem_cons_of_mem l h')
          exact ⟨c :: pre, post, by simp [hsplit]⟩

theorem occurs_in_patterns (sym p : List Char) (h : p ∈ patterns sym) :
    Occurs sym p := by
  simp only [patterns, List.mem_cons, List.not_mem_nil, or_false] at h
  rcases h with rfl | rfl | rfl | rfl | rfl | rfl | rfl
  · exact ⟨"func ".data, "(".data, by simp⟩
  · exact ⟨"func (".data, ")".data, by simp⟩
  · exact ⟨"type ".data, " ".data, by simp⟩
  · exact ⟨"var ".data, " ".data, by simp⟩
  · exact ⟨"const ".data, " ".data, by simp⟩
  · exact ⟨[], " :=".data, by simp⟩
  · exact ⟨[], " =".data, by simp⟩

theorem findFirst_some (line : List Char) :
    ∀ (ps : List (List Char)) (i : Nat), findFirst line ps = some i →
      ∃ p ∈ ps, strIndex line p = some i := by
  intro ps
  induction ps with
  | nil => intro i h; cases h
  | cons p ps ih =>
    intro i h
    simp only [findFirst] at h
    cases hp : strIndex line p with
    | some j =>
      rw [hp] at h
      cases h
      exact ⟨p, List.mem_cons_self p ps, hp⟩
    | none =>
      rw [hp] at h
      obtain ⟨q, hq, hqi⟩ := ih i h
      exact ⟨q, List.mem_cons_of_mem p hq, hqi⟩

theorem lineScan_none_iff (sym line : List Char) :
    lineScan sym line = none ↔ ¬ Occurs sym line := by
  cases hf : findFirst line (patterns sym) with
  | none =>
    have h1 : lineScan sym line = strIndex line sym := by
      unfold lineScan; rw [hf]
    rw [h1]
    exact strIndex_none_iff sym line
  | some i =>
    have h1 : lineScan sym line = some i := by
      unfold lineScan; rw [hf]
    rw [h1]
    obtain ⟨p, hp, hpi⟩ := findFirst_some line (patterns sym) i hf
    have hop : Occurs p line := by
      rw [occurs_iff_isSome p line]
      simp [hpi]
    have hos : Occurs sym line := occurs_trans (occurs_in_patterns sym p hp) hop
    exact iff_of_false (by simp) (not_not_intro hos)

theorem goFind_none_iff (sym : List Char) :
    ∀ (lines : List (List Char)) (base : Nat),
      goFind sym base lines = none ↔ ∀ line ∈ lines, lineScan sym line = none := by
  intro lines
  induction lines with
  | nil => intro base; simp [goFind]
  | cons line rest ih =>
    intro base
    cases h : lineScan sym line with
    | some i =>
      have h1 : goFind sym base (line :: rest) = some ⟨base, i⟩ := by
        unfold goFind; rw [h]
      refine iff_of_false (by simp [h1]) ?_
      intro hall
      rw [hall line (List.mem_cons_self line rest)] at h
      cases h
    | none =>
      have h1 : goFind sym base (line :: rest) = goFind sym (base + 1) rest := by
        conv_lhs => rw [goFind]
        rw [h]
      rw [h1, ih (base + 1)]
      simp [List.forall_mem_cons, h]

/-- C6: for every content and (newline-free) symbol name, the locator returns
not-found exactly when the symbol name occurs nowhere in the content as a
substring. -/
theorem locateNoneIffAbsent (content symbol : List Char) (hnl : nlChar ∉ symbol) :
    findSymbolPosition content symbol = none ↔ ¬ Occurs symbol content := by
  unfold findSymbolPosition
  rw [goFind_none_iff symbol (splitOnNl content) 0]
  constructor
  · intro hall hocc
    obtain ⟨line, hmem, hline⟩ := occurs_line_of_occurs hnl content hocc
    exact (lineScan_none_iff symbol line).mp (hall line hmem) hline
  · intro hno line hmem
    exact (lineScan_none_iff symbol line).mpr
      (fun hocc => hno (occurs_trans hocc (occurs_of_mem_split content line hmem)))

/-- C6 witness: "Foo" contains no newline, so on the content "bar baz" the
locator's not-found result is equivalent to "Foo" occurring nowhere in it. -/
theorem locateNoneIffAbsent_witness :
    findSymbolPosition "bar baz".data "Foo".data = none ↔
      ¬ Occurs "Foo".data "bar baz".data :=
  locateNoneIffAbsent "bar baz".data "Foo".data (by decide)

/-! ## C3: the batch never aborts and covers every symbol -/

/-- C3: once the file is readable and the document opened, GetCodeDefinitions
returns without error, and the report is the fixed header followed by exactly
one chunk per requested symbol, in request order; each chunk is either the
"Not found in file" line for that symbol, a one-line definition-failure entry
for it, or a success block carrying a definition location — so no per-symbol
failure aborts the batch. -/
theorem batchReport
    (fs : List Char → Except (List Char) (List Char))
    (didOpen : List Char → List Char → List Char → Except (List Char) Unit)
    (goToDef : List Char → Nat → Nat → Except (List Char) (List Location))
    (filePath content : List Char) (symbols : List (List Char))
    (hread : fs filePath = .ok content)
    (hopen : didOpen (toUri filePath) "go".data content = .ok ()) :
    getCodeDefinitions fs didOpen goToDef filePath symbols =
      .ok ("Code Definitions:\n\n".data
        ++ (symbols.map (symbolChunk fs goToDef filePath content)).flatten) ∧
    ∀ s ∈ symbols,
      (findSymbolPosition content s = none ∧
        symbolChunk fs goToDef filePath content s = notFoundLine s) ∨
      (∃ e, symbolChunk fs goToDef filePath content s = defErrLine s e) ∨
      (∃ definition, symbolChunk fs goToDef filePath content s =
        successBlock fs s definition) := by
  constructor
  · simp [getCodeDefinitions, initializeWorkspace, hread, hopen]
  · intro s _
    cases hp : findSymbolPosition content s with
    | none => exact Or.inl ⟨rfl, by simp [symbolChunk, hp]⟩
    | some pos =>
      cases hd : getDefinitionAtPosition goToDef filePath pos with
      | error e => exact Or.inr (Or.inl ⟨e, by simp [symbolChunk, hp, hd]⟩)
      | ok d => exact Or.inr (Or.inr ⟨d, by simp [symbolChunk, hp, hd]⟩)

/-- Witness file content: a function, a var, and nothing else. -/
def c3content : List Char := "func Foo() {}\nvar Bar = 1\n".data

/-- Witness file path. -/
def c3path : List Char := "/w/a.go".data

/-- Witness file system: only c3path is readable. -/
def c3fs : List Char → Except (List Char) (List Char) :=
  fun p => if p = c3path then .ok c3content else .error "open: no such file".data

/-- Witness DidOpen: always succeeds. -/
def c3didOpen : List Char → List Char → List Char → Except (List Char) Unit :=
  fun _ _ _ => .ok ()

/-- Witness definition location returned by the mock gopls. -/
def c3loc : Location := ⟨toUri c3path, ⟨⟨0, 0⟩, ⟨0, 12⟩⟩⟩

/-- Witness gopls responder: one location at line 0, an empty list elsewhere. -/
def c3goToDef : List Char → Nat → Nat → Except (List Char) (List Location) :=
  fun _ line _ => if line = 0 then .ok [c3loc] else .ok []

/-- Witness symbol batch: a success, a miss, and an empty definition answer. -/
def c3symbols : List (List Char) := ["Foo".data, "Missing".data, "Bar".data]

/-- C3 witness: on the concrete batch the call returns ok with one chunk per
symbol ("Foo" succeeds, "Missing" is absent, "Bar" gets an empty answer). -/
theorem batchReport_witness :
    getCodeDefinitions c3fs c3didOpen c3goToDef c3path c3symbols =
      .ok ("Code Definitions:\n\n".data
        ++ (c3symbols.map (symbolChunk c3fs c3goToDef c3path c3content)).flatten) :=
  (batchReport c3fs c3didOpen c3goToDef c3path c3content c3symbols
    rfl rfl).1

/-! ## C7: first location wins and the excerpt is the literal line span -/

theorem joinNl_cons (x : List Char) (L : List (List Char)) (h : L ≠ []) :
    joinNl (x :: L) = x ++ nlChar :: joinNl L := by
  cases L with
  | nil => exact absurd rfl h
  | cons y ys => rfl

theorem extractCount_eq_joinNl (lines : List (List Char)) :
    ∀ (k i : Nat), i + k < lines.length →
      extractCount lines (i + k) i (k + 1) =
        joinNl ((lines.drop i).take (k + 1)) := by
  intro k
  induction k with
  | zero =>
    intro i hi
    simp only [Nat.add_zero] at hi ⊢
    have h1 : extractCount lines i i 1 =
        (if i < lines.length then
           lines.getD i [] ++ (if i < i then [nlChar] else [])
         else []) ++ extractCount lines i (i + 1) 0 := rfl
    rw [h1]
    simp only [extractCount, if_pos hi, Nat.lt_irrefl, if_neg (lt_irrefl i),
      List.append_nil]
    rw [List.drop_eq_getElem_cons hi, List.take_succ_cons, List.take_zero,
      List.getD_eq_getElem lines [] hi]
    simp [joinNl]
  | succ k ih =>
    intro i hi
    have hi' : i < lines.length := by omega
    have hlt : i < i + (k + 1) := by omega
    have h1 : extractCount lines (i + (k + 1)) i (k + 1 + 1) =
        (lines.getD i [] ++ [nlChar])
          ++ extractCount lines (i + (k + 1)) (i + 1) (k + 1) := by
      simp [extractCount, hi', hlt]
    rw [h1]
    have h2 : i + (k + 1) = i + 1 + k := by omega
    rw [h2, ih (i + 1) (by omega)]
    rw [List.drop_eq_getElem_cons hi', List.take_succ_cons]
    rw [joinNl_cons]
    · rw [List.getD_eq_getElem lines [] hi']
      simp
    · have hlen : ((lines.drop (i + 1)).take (k + 1)).length =
          min (k + 1) (lines.length - (i + 1)) := by
        simp [List.length_take, List.length_drop]
      intro hnil
      rw [hnil] at hlen
      simp only [List.length_nil] at hlen
      omega

theorem extractLines_eq_joinNl (lines : List (List Char)) (a b : Nat)
    (hab : a ≤ b) (hb : b < lines.length) :
    extractLines lines a b = joinNl ((lines.drop a).take (b - a + 1)) := by
  obtain ⟨k, rfl⟩ : ∃ k, b = a + k := ⟨b - a, by omega⟩
  have h1 : a + k + 1 - a = k + 1 := by omega
  have h2 : a + k - a = k := by omega
  rw [extractLines, h1, h2]
  exact extractCount_eq_joinNl lines k a hb

/-- C7: when the definition request returns a non-empty location list, the
resolver answers with exactly the first location; and for an in-bounds range,
reading that location's target file yields exactly the literal lines of the
file from the range's start line through its end line inclusive (joined by
newlines). -/
theorem firstLocationExcerpt
    (goToDef : List Char → Nat → Nat → Except (List Char) (List Location))
    (fs : List Char → Except (List Char) (List Char))
    (filePath : List Char) (pos : Position) (loc : Location)
    (rest : List Location) (targetPath tcontent : List Char)
    (hdef : goToDef (toUri filePath) pos.line pos.character = .ok (loc :: rest))
    (huri : loc.uri = toUri targetPath)
    (hfs : fs targetPath = .ok tcontent)
    (hse : loc.range.start.line ≤ loc.range.stop.line)
    (hend : loc.range.stop.line < (splitOnNl tcontent).length) :
    getDefinitionAtPosition goToDef filePath pos = .ok loc ∧
    getCodeAtLocation fs loc =
      .ok (joinNl (((splitOnNl tcontent).drop loc.range.start.line).take
        (loc.range.stop.line - loc.range.start.line + 1))) := by
  constructor
  · simp [getDefinitionAtPosition, hdef]
  · have hpath : fromUri loc.uri = targetPath := by
      rw [huri]; exact fromUri_toUri _
    have hstart : loc.range.start.line < (splitOnNl tcontent).length :=
      lt_of_le_of_lt hse hend
    have hnot : ¬ ((splitOnNl tcontent).length ≤ loc.range.start.line) :=
      not_le.mpr hstart
    have hnot2 : ¬ ((splitOnNl tcontent).length ≤ loc.range.stop.line) :=
      not_le.mpr hend
    simp only [getCodeAtLocation, hpath, hfs, extractClamped, ge_iff_le,
      if_neg hnot, if_neg hnot2]
    exact congrArg Except.ok (extractLines_eq_joinNl _ _ _ hse hend)

/-- Witness target path for the excerpt extraction. -/
def c7target : List Char := "/w/lib.go".data

/-- Witness target file content (five lines after the split). -/
def c7tcontent : List Char := "package lib\nfunc Baz() int\n  return 1\nend func\n".data

/-- Witness file system for the excerpt extraction. -/
def c7fs : List Char → Except (List Char) (List Char) :=
  fun p => if p = c7target then .ok c7tcontent else .error "open: no such file".data

/-- Witness location: lines 1 through 3 of the target file. -/
def c7loc : Location := ⟨toUri c7target, ⟨⟨1, 5⟩, ⟨3, 0⟩⟩⟩

/-- Witness gopls responder: always answers with the one location. -/
def c7goToDef : List Char → Nat → Nat → Except (List Char) (List Location) :=
  fun _ _ _ => .ok [c7loc]

/-- C7 witness: the resolver takes the first (only) location and the excerpt is
lines 1..3 of the target file. -/
theorem firstLocationExcerpt_witness :
    getDefinitionAtPosition c7goToDef "/w/a.go".data ⟨0, 0⟩ = .ok c7loc ∧
    getCodeAtLocation c7fs c7loc =
      .ok (joinNl (((splitOnNl c7tcontent).drop 1).take 3)) :=
  firstLocationExcerpt c7goToDef c7fs "/w/a.go".data ⟨0, 0⟩ c7loc [] c7target
    c7tcontent rfl rfl rfl (by decide) (by decide)

/-! ## C9: extraction bounds — start checked, end clamped -/

/-- C9: extraction never indexes past the file's lines: with a readable target
file, a range whose start line is at or past the number of lines yields the
"start line out of bounds" error, and otherwise the extraction runs with the
end line clamped to the last line of the file (the minimum of the range's end
line and line count minus one), so every index the loop touches stays below
the line count. -/
theorem excerptBounds
    (fs : List Char → Except (List Char) (List Char))
    (loc : Location) (targetPath tcontent : List Char)
    (huri : loc.uri = toUri targetPath)
    (hfs : fs targetPath = .ok tcontent) :
    (loc.range.start.line ≥ (splitOnNl tcontent).length →
      getCodeAtLocation fs loc = .error "start line out of bounds".data) ∧
    (loc.range.start.line < (splitOnNl tcontent).length →
      getCodeAtLocation fs loc = .ok (extractLines (splitOnNl tcontent)
        loc.range.start.line
        (min loc.range.stop.line ((splitOnNl tcontent).length - 1)))) := by
  have hpath : fromUri loc.uri = targetPath := by
    rw [huri]; exact fromUri_toUri _
  constructor
  · intro hge
    simp [getCodeAtLocation, hpath, hfs, hge]
  · intro hlt
    have hnot : ¬ ((splitOnNl tcontent).length ≤ loc.range.start.line) :=
      not_le.mpr hlt
    have hpos : 1 ≤ (splitOnNl tcontent).length := by
      have := splitOnNl_ne_nil tcontent
      cases h : splitOnNl tcontent with
      | nil => exact absurd h this
      | cons l ls => simp [h]
    by_cases hstop : (splitOnNl tcontent).length ≤ loc.range.stop.line
    · have hmin : min loc.range.stop.line ((splitOnNl tcontent).length - 1)
          = (splitOnNl tcontent).length - 1 := by omega
      simp [getCodeAtLocation, hpath, hfs, extractClamped, hnot, hstop, hmin]
    · have hmin : min loc.range.stop.line ((splitOnNl tcontent).length - 1)
          = loc.range.stop.line := by omega
      simp [getCodeAtLocation, hpath, hfs, extractClamped, hnot, hstop, hmin]

/-- Witness target path for the bounds check. -/
def c9target : List Char := "/w/three.go".data

/-- Witness target content: the three lines a, b, c. -/
def c9tcontent : List Char := "a\nb\nc".data

/-- Witness file system for the bounds check. -/
def c9fs : List Char → Except (List Char) (List Char) :=
  fun p => if p = c9target then .ok c9tcontent else .error "open: no such file".data

/-- Witness location whose end line 99 lies far past the three lines. -/
def c9loc : Location := ⟨toUri c9target, ⟨⟨1, 0⟩, ⟨99, 0⟩⟩⟩

/-- C9 witness: with start line 1 in bounds and end line 99 out of bounds, the
extraction runs with the end clamped to line 2, the last line. -/
theorem excerptBounds_witness :
    getCodeAtLocation c9fs c9loc =
      .ok (extractLines (splitOnNl c9tcontent) 1
        (min 99 ((splitOnNl c9tcontent).length - 1))) :=
  (excerptBounds c9fs c9loc c9target c9tcontent rfl rfl).2 (by decide)

/-! ## C10: the report prints one-based line and character -/

theorem occurs_of_mem_flatten {x : List Char} :
    ∀ L : List (List Char), x ∈ L → Occurs x L.flatten := by
  intro L
  induction L with
  | nil => intro h; cases h
  | cons y ys ih =>
    intro h
    rcases List.mem_cons.mp h with rfl | h'
    · exact ⟨[], ys.flatten, by simp⟩
    · obtain ⟨pre, post, hp⟩ := ih h'
      exact ⟨y ++ pre, post, by simp [hp]⟩

/-- C10: in any report produced by a successful GetCodeDefinitions call, a
symbol that was located and got a non-empty definition answer contributes a
line printing Line and Character as the definition's zero-based protocol
position plus one (one-based display), even though the positions exchanged
with gopls stay zero-based. -/
theorem displayOneBased
    (fs : List Char → Except (List Char) (List Char))
    (didOpen : List Char → List Char → List Char → Except (List Char) Unit)
    (goToDef : List Char → Nat → Nat → Except (List Char) (List Location))
    (filePath content s : List Char) (symbols : List (List Char))
    (pos : Position) (loc : Location) (rest : List Location) (report : List Char)
    (hread : fs filePath = .ok content)
    (hopen : didOpen (toUri filePath) "go".data content = .ok ())
    (hs : s ∈ symbols)
    (hpos : findSymbolPosition content s = some pos)
    (hdef : goToDef (toUri filePath) pos.line pos.character = .ok (loc :: rest))
    (hrep : getCodeDefinitions fs didOpen goToDef filePath symbols = .ok report) :
    Occurs ("  Line: ".data ++ natStr (loc.range.start.line + 1)
      ++ ", Character: ".data ++ natStr (loc.range.start.character + 1)
      ++ "\n".data) report := by
  have hok : getCodeDefinitions fs didOpen goToDef filePath symbols =
      .ok ("Code Definitions:\n\n".data
        ++ (symbols.map (symbolChunk fs goToDef filePath content)).flatten) := by
    simp [getCodeDefinitions, initializeWorkspace, hread, hopen]
  rw [hok] at hrep
  have hreport : report = "Code Definitions:\n\n".data
      ++ (symbols.map (symbolChunk fs goToDef filePath content)).flatten :=
    (Except.ok.inj hrep).symm
  subst hreport
  have hd : getDefinitionAtPosition goToDef filePath pos = .ok loc := by
    simp [getDefinitionAtPosition, hdef]
  have hchunk : symbolChunk fs goToDef filePath content s = successBlock fs s loc := by
    simp [symbolChunk, hpos, hd]
  have hseg : Occurs ("  Line: ".data ++ natStr (loc.range.start.line + 1)
      ++ ", Character: ".data ++ natStr (loc.range.start.character + 1)
      ++ "\n".data) (symbolChunk fs goToDef filePath content s) := by
    rw [hchunk]
    refine ⟨"Symbol ".data ++ [sqChar] ++ s ++ [sqChar] ++ ":\n".data
      ++ "  Location: ".data ++ loc.uri ++ "\n".data,
      codeSegment fs loc ++ "\n".data, ?_⟩
    simp [successBlock, List.append_assoc]
  have hmem : symbolChunk fs goToDef filePath content s ∈
      symbols.map (symbolChunk fs goToDef filePath content) :=
    List.mem_map_of_mem _ hs
  have h2 := occurs_trans hseg (occurs_of_mem_flatten _ hmem)
  obtain ⟨pre, post, hp⟩ := h2
  exact ⟨"Code Definitions:\n\n".data ++ pre, post, by simp [hp]⟩

/-- Witness file content for the display check. -/
def c10content : List Char := "func Foo() {}\n".data

/-- Witness file path for the display check. -/
def c10path : List Char := "/w/m.go".data

/-- Witness file system for the display check. -/
def c10fs : List Char → Except (List Char) (List Char) :=
  fun p => if p = c10path then .ok c10content else .error "open: no such file".data

/-- Witness DidOpen for the display check: always succeeds. -/
def c10didOpen : List Char → List Char → List Char → Except (List Char) Unit :=
  fun _ _ _ => .ok ()

/-- Witness location at zero-based line 4, character 6. -/
def c10loc : Location := ⟨toUri c10path, ⟨⟨4, 6⟩, ⟨4, 9⟩⟩⟩

/-- Witness gopls responder for the display check. -/
def c10goToDef : List Char → Nat → Nat → Except (List Char) (List Location) :=
  fun _ _ _ => .ok [c10loc]

/-- Witness symbol batch for the display check. -/
def c10symbols : List (List Char) := ["Foo".data]

/-- The report the witness batch produces. -/
def c10report : List Char :=
  match getCodeDefinitions c10fs c10didOpen c10goToDef c10path c10symbols with
  | .ok r => r
  | .error _ => []

/-- C10 witness: the zero-based definition position {4, 6} is printed as
Line 5, Character 7 in the report. -/
theorem displayOneBased_witness :
    Occurs ("  Line: ".data ++ natStr 5 ++ ", Character: ".data ++ natStr 7
      ++ "\n".data) c10report :=
  displayOneBased c10fs c10didOpen c10goToDef c10path c10content "Foo".data
    c10symbols ⟨0, 0⟩ c10loc [] c10report rfl rfl (by decide) (by decide) rfl rfl
